import Mathlib

/-!
Verification of the DocuVerse hierarchical chunking and retrieval pipeline.

Each definition is a shallow embedding of a function of the repository:

* `ProgressManager` state machine — `worker/app/core/progress_manager.py`
* hierarchical recursive splitting — `worker/app/core/lib/llamaindex/hierarchical_node_parser.py`
* chunking-time metadata filtering and chunk persistence — `worker/app/services/document_ingestor.py`
* query rewriting, reranking and context assembly — `backend/app/services/enhanced_vector_store.py`
* source validation (confidence scoring) — `backend/app/services/qa_graph_service.py`

Machine floats are modelled as rationals, Python dictionaries as association
lists or structures, network calls as `Except` values describing the response.
-/

namespace DocuVerse

/-! ## ProgressManager (worker/app/core/progress_manager.py)

State of one `ProgressManager` instance: the fields mutated by
`start_stage` / `update_stage_progress` / `complete_stage`.
`started` models the key set of `stage_start_times`. -/

structure PMState where
  current_stage : String
  stage_progress : ℚ
  total_progress : ℚ
  started : List String
deriving DecidableEq

/-- Initial field values set in `ProgressManager.__init__`. -/
def initPM : PMState :=
  { current_stage := "initialized"
    stage_progress := 0
    total_progress := 0
    started := [] }

/-- The stage weights dictionary from `ProgressManager.__init__`
(`parsing=0.2, chunking=0.3, embedding=0.3, storage=0.2`), in insertion
order, as iterated by `_update_total_progress`. -/
def stageWeights : List (String × ℚ) :=
  [("parsing", 1/5), ("chunking", 3/10), ("embedding", 3/10), ("storage", 1/5)]

/-- The loop body of `ProgressManager._update_total_progress`: a started
stage contributes `(stage_progress/100) * weight` if it is the current
stage, its full weight otherwise; unstarted stages contribute nothing. -/
def stageContrib (started : List String) (cur : String) (sp : ℚ)
    (stage : String) (w : ℚ) : ℚ :=
  if stage ∈ started then (if stage = cur then sp / 100 * w else w) else 0

/-- `ProgressManager._update_total_progress`: the recomputed
`total_progress` value (the accumulated weighted sum, times 100). -/
def totalOf (started : List String) (cur : String) (sp : ℚ) : ℚ :=
  100 * (stageWeights.foldl (fun acc sw => acc + stageContrib started cur sp sw.1 sw.2) 0)

/-- State effect of `ProgressManager._update_total_progress`. -/
def updateTotalProgress (s : PMState) : PMState :=
  { s with total_progress := totalOf s.started s.current_stage s.stage_progress }

/-- `ProgressManager.start_stage`: sets the current stage, resets
`stage_progress` to 0 and records the stage start time.  It does not
recompute `total_progress`. -/
def start_stage (name : String) (s : PMState) : PMState :=
  { s with
    current_stage := name
    stage_progress := 0
    started := name :: s.started }

/-- `ProgressManager.update_stage_progress`: when `total > 0` it sets
`stage_progress := current/total*100` and recomputes `total_progress`;
when `total = 0` neither field is touched. -/
def update_stage_progress (current total : ℕ) (s : PMState) : PMState :=
  if 0 < total then
    updateTotalProgress { s with stage_progress := (current : ℚ) / (total : ℚ) * 100 }
  else s

/-- `ProgressManager.complete_stage`: sets `stage_progress := 100` and
recomputes `total_progress` (the argument only enters the report text). -/
def complete_stage (_name : String) (s : PMState) : PMState :=
  updateTotalProgress { s with stage_progress := 100 }

end DocuVerse

namespace DocuVerse

/-- A concrete reachable mid-parsing state, used to exercise
`update_stage_progress` with `total = 0`. -/
def pmMidParsing : PMState :=
  update_stage_progress 1 2 (start_stage "parsing" initPM)

example : pmMidParsing.stage_progress = 50 := by
  norm_num [pmMidParsing, update_stage_progress, start_stage, initPM,
    updateTotalProgress]

/-- C9 counterexample: calling `update_stage_progress` with `total = 0` on a
state whose stage percentage is 50 leaves the stored stage percentage at 50;
it is not set to 0 as the claim states. -/
theorem C9_counterexample :
    (update_stage_progress 7 0 pmMidParsing).stage_progress = 50 ∧
      ¬ (update_stage_progress 7 0 pmMidParsing).stage_progress = 0 := by
  constructor
  · norm_num [update_stage_progress, pmMidParsing, start_stage, initPM,
      updateTotalProgress]
  · norm_num [update_stage_progress, pmMidParsing, start_stage, initPM,
      updateTotalProgress]

/-- C9 (amended): `update_stage_progress(message, current, total)` sets the
stored stage percentage to `current/total*100` when `total > 0`, and leaves
the whole state unchanged when `total = 0`. -/
theorem C9_update_stage_progress_spec (s : PMState) (current total : ℕ) :
    (0 < total →
      (update_stage_progress current total s).stage_progress
        = (current : ℚ) / (total : ℚ) * 100) ∧
    (total = 0 → update_stage_progress current total s = s) := by
  constructor
  · intro h
    simp [update_stage_progress, h, updateTotalProgress]
  · intro h
    simp [update_stage_progress, h]

/-- C9 witness: the amended statement evaluated at a concrete state and
concrete arguments. -/
theorem C9_witness :
    ((0:ℕ) < 4 →
      (update_stage_progress 1 4 pmMidParsing).stage_progress
        = ((1 : ℕ) : ℚ) / ((4 : ℕ) : ℚ) * 100) ∧
    ((4:ℕ) = 0 → update_stage_progress 1 4 pmMidParsing = pmMidParsing) :=
  C9_update_stage_progress_spec pmMidParsing 1 4

/-! ## Source validation (backend/app/services/qa_graph_service.py)

`QAGraphService._validate_sources_node` computes the confidence from the
per-source vector scores (`source.get("score", 0.0)`). -/

/-- Confidence computed by `_validate_sources_node`: `0.0` when there are no
sources, otherwise `min(sum(scores)/len(scores), 1.0)`. -/
def validateSourcesConfidence (scores : List ℚ) : ℚ :=
  if scores = [] then 0
  else min (scores.sum / (scores.length : ℚ)) 1

/-- C4: at the failing input of a single source with vector score `-1/2`
(cosine similarity scores may be negative), `_validate_sources_node` yields
confidence `-1/2`, which is below 0: `min(avg_score, 1.0)` clamps only the
upper bound, contradicting the claimed clamp to `[0, 1]` and the code's own
comment that the confidence is normalized to a 0-1 scale. -/
theorem C4_confidence_negative_at_failing_input :
    validateSourcesConfidence [-(1/2)] = -(1/2) ∧
      validateSourcesConfidence [-(1/2)] < 0 := by
  constructor
  · norm_num [validateSourcesConfidence]
  · norm_num [validateSourcesConfidence]

/-! ## Chunk persistence (worker/app/services/document_ingestor.py)

`DocumentIngestor._send_chunks_to_backend` posts the chunk payload to the
backend.  The POST outcome is modelled as `Except String ℕ`: a transport
error, or the HTTP status code of the response. -/

/-- `DocumentIngestor._send_chunks_to_backend`: on a 200 response it logs
and returns; on any other status code it raises `Backend API error: <code>`
(the `except` clause logs and re-raises); a transport error propagates. -/
def sendChunksToBackend (resp : Except String ℕ) : Except String Unit :=
  match resp with
  | Except.error e => Except.error e
  | Except.ok code =>
      if code = 200 then Except.ok ()
      else Except.error ("Backend API error: " ++ toString code)

/-- Tail of `DocumentIngestor.ingest` once parsing, chunking, embedding and
vector storage have succeeded with `nChunks` chunks: it calls
`_store_metadata_in_backend` (which ends in `_send_chunks_to_backend` with
POST outcome `resp`).  On success the `completed` report is sent and `ingest`
returns the chunk count; an exception is caught by the outer handler, which
sends a `failed` report and re-raises.  The result pairs the return value of
`ingest` with the final status reported to the backend. -/
def ingestAfterStorage (nChunks : ℕ) (resp : Except String ℕ) :
    Except String ℕ × String :=
  match sendChunksToBackend resp with
  | Except.ok _ => (Except.ok nChunks, "completed")
  | Except.error e => (Except.error e, "failed")

/-- C3 counterexample: with all prior stages successful and the chunk
persistence POST answered with status 500, `ingest` reports the final task
status `failed` and raises (returns no chunk count) — the failure is not
treated as non-fatal as the claim states. -/
theorem C3_counterexample :
    (ingestAfterStorage 5 (Except.ok 500)).2 = "failed" ∧
      (ingestAfterStorage 5 (Except.ok 500)).1
        = Except.error "Backend API error: 500" ∧
      ¬ (ingestAfterStorage 5 (Except.ok 500)).1 = Except.ok 5 := by
  refine ⟨rfl, rfl, ?_⟩
  simp [ingestAfterStorage, sendChunksToBackend]

/-- C3 (amended): in the worker's `ingest`, a chunk-persistence failure
(non-200 response or transport error) is fatal: the overall task status is
reported `failed` and `ingest` raises instead of returning the chunk count;
only a 200 response lets `ingest` report `completed` and return the count.
(The non-fatal treatment of chunk-save failures lives in the backend's
`/worker/status` route, not in the worker.) -/
theorem C3_chunk_persistence_failure_is_fatal (nChunks : ℕ)
    (resp : Except String ℕ) (hfail : ∀ code, resp = Except.ok code → code ≠ 200) :
    (∃ e, ingestAfterStorage nChunks resp = (Except.error e, "failed")) ∧
      ingestAfterStorage nChunks (Except.ok 200) = (Except.ok nChunks, "completed") := by
  constructor
  · match resp, hfail with
    | Except.error e, _ => exact ⟨e, rfl⟩
    | Except.ok code, hfail =>
        refine ⟨"Backend API error: " ++ toString code, ?_⟩
        have hne : ¬ code = 200 := hfail code rfl
        simp [ingestAfterStorage, sendChunksToBackend, hne]
  · rfl

/-- C3 witness: the amended statement at the concrete failing response
`Except.ok 500` with 5 chunks. -/
theorem C3_witness :
    (∃ e, ingestAfterStorage 5 (Except.ok 500) = (Except.error e, "failed")) ∧
      ingestAfterStorage 5 (Except.ok 200) = (Except.ok 5, "completed") :=
  C3_chunk_persistence_failure_is_fatal 5 (Except.ok 500)
    (by intro code h; cases h; decide)

/-! ## Hierarchical recursive splitting
(worker/app/core/lib/llamaindex/hierarchical_node_parser.py)

`CustomHierarchicalNodeParser._recursively_get_nodes_from_nodes` is
parametrised here by the per-level text splitter (`node_parser_map` lookup +
`get_nodes_from_documents`) and by `_add_enhanced_relationships` (which only
rewrites a child node given its parent), over an abstract node type `α`.
`numSplitters` is `len(self.node_parser_ids)` = `len(chunk_sizes)`. -/

def recursivelyGetNodesFromNodes {α : Type} (split : ℕ → α → List α)
    (enrich : α → α → α) (numSplitters : ℕ)
    (nodes : List α) (level : ℕ) : Except String (List α) :=
  if numSplitters ≤ level then
    Except.error ("Level " ++ toString level
      ++ " is greater than number of text splitters (" ++ toString numSplitters ++ ").")
  else
    let subNodes := nodes.flatMap (fun node =>
      let cur := split level node
      if 0 < level then cur.map (enrich node) else cur)
    if level < numSplitters - 1 then
      match recursivelyGetNodesFromNodes split enrich numSplitters subNodes (level + 1) with
      | Except.ok subSub => Except.ok (subNodes ++ subSub)
      | Except.error e => Except.error e
    else Except.ok (subNodes ++ [])
termination_by numSplitters - level
decreasing_by omega

/-- Any call with a level index strictly below the number of splitters
succeeds: the out-of-range branch is unreachable, including in all
recursive calls. -/
lemma recursivelyGetNodesFromNodes_isOk {α : Type} (split : ℕ → α → List α)
    (enrich : α → α → α) (numSplitters : ℕ) :
    ∀ (fuel : ℕ) (nodes : List α) (level : ℕ), level < numSplitters →
      numSplitters - level ≤ fuel →
      ∃ out, recursivelyGetNodesFromNodes split enrich numSplitters nodes level
        = Except.ok out := by
  intro fuel
  induction fuel with
  | zero => intro nodes level hlt hle; omega
  | succ n ih =>
      intro nodes level hlt hle
      rw [recursivelyGetNodesFromNodes]
      have hnot : ¬ numSplitters ≤ level := by omega
      simp only [hnot, if_false]
      by_cases hrec : level < numSplitters - 1
      · obtain ⟨out, hout⟩ := ih
          (nodes.flatMap (fun node =>
            let cur := split level node
            if 0 < level then cur.map (enrich node) else cur))
          (level + 1) (by omega) (by omega)
        simp only [hrec, if_true, hout]
        exact ⟨_, rfl⟩
      · simp only [hrec, if_false]
        exact ⟨_, rfl⟩

/-- C8: a call of `_recursively_get_nodes_from_nodes` with a level index at
or beyond the number of configured splitters fails fast with the explicit
out-of-range `ValueError` (no silent clamping), and a call with a level
index strictly below that bound never reaches the error branch — it
returns normally, for every splitter, enrichment function and node list. -/
theorem C8_level_bound_fail_fast {α : Type} (split : ℕ → α → List α)
    (enrich : α → α → α) (numSplitters : ℕ) (nodes : List α) :
    (∀ level, numSplitters ≤ level →
      recursivelyGetNodesFromNodes split enrich numSplitters nodes level
        = Except.error ("Level " ++ toString level
            ++ " is greater than number of text splitters ("
            ++ toString numSplitters ++ ").")) ∧
    (∀ level, level < numSplitters →
      ∃ out, recursivelyGetNodesFromNodes split enrich numSplitters nodes level
        = Except.ok out) := by
  constructor
  · intro level h
    rw [recursivelyGetNodesFromNodes]
    simp [h]
  · intro level h
    exact recursivelyGetNodesFromNodes_isOk split enrich numSplitters
      (numSplitters - level) nodes level h le_rfl

/-- C8 witness: with three splitters (the configured
`chunk_sizes=[4096, 2048, 1024]`), a request for level 3 fails with the
out-of-range error and a request for level 0 succeeds, at a concrete
splitter and node list. -/
theorem C8_witness :
    recursivelyGetNodesFromNodes (fun _ n => [n, n + 1]) (fun _ c => c) 3 [0] 3
        = Except.error "Level 3 is greater than number of text splitters (3)." ∧
      ∃ out, recursivelyGetNodesFromNodes (fun _ n => [n, n + 1]) (fun _ c => c) 3 [0] 0
        = Except.ok out := by
  obtain ⟨h1, h2⟩ := C8_level_bound_fail_fast (fun _ n => [n, n + 1]) (fun _ c => c) 3 [0]
  exact ⟨h1 3 (by norm_num), h2 0 (by norm_num)⟩

/-! ## Conversation-aware retrieval
(backend/app/services/enhanced_vector_store.py)

`_enhance_query_with_history`, `_rerank_results` and `get_context_for_qa`.
A conversation message is a dictionary with `role` and `content` keys. -/

structure Msg where
  role : String
  content : String
deriving DecidableEq

/-- Body of the history loop of `_enhance_query_with_history`: a `user`
message renders as `Previous question: …`, an `assistant` message as
`Previous answer: …`, any other role is skipped. -/
def renderMessage (m : Msg) : Option String :=
  if m.role = "user" then some ("Previous question: " ++ m.content)
  else if m.role = "assistant" then some ("Previous answer: " ++ m.content)
  else none

/-- Python's `conversation_history[-4:]`: the last four messages (all of
them when there are fewer than four). -/
def lastFour (hist : List Msg) : List Msg := hist.drop (hist.length - 4)

/-- Python's `sep.join(parts)`. -/
def pyJoin (sep : String) : List String → String
  | [] => ""
  | [s] => s
  | s :: s' :: rest => s ++ sep ++ pyJoin sep (s' :: rest)

/-- `EnhancedVectorStoreService._enhance_query_with_history`: empty history
returns the query unchanged; otherwise the last four messages are rendered,
joined with spaces and appended as a bracketed context suffix (the query is
also returned unchanged when no message of the window has a known role). -/
def enhanceQueryWithHistory (query : String) (hist : List Msg) : String :=
  if hist = [] then query
  else
    let recent := (lastFour hist).filterMap renderMessage
    if recent = [] then query
    else query ++ " [Context from conversation: " ++ pyJoin " " recent ++ "]"

lemma length_filterMap_of_isSome {α β : Type} (f : α → Option β) :
    ∀ l : List α, (∀ a ∈ l, (f a).isSome) → (l.filterMap f).length = l.length := by
  intro l
  induction l with
  | nil => intro _; rfl
  | cons a l ih =>
      intro h
      obtain ⟨b, hb⟩ := Option.isSome_iff_exists.mp (h a (List.mem_cons_self a l))
      rw [List.filterMap_cons, hb]
      simp only [List.length_cons]
      rw [ih (fun x hx => h x (List.mem_cons_of_mem a hx))]

lemma lastFour_length (hist : List Msg) :
    (lastFour hist).length = min 4 hist.length := by
  simp only [lastFour, List.length_drop]
  omega

/-- C7: for a non-empty history made of `user`/`assistant` turns, the
rewritten query is the original query followed by one bracketed context
suffix built from exactly the last four turns, rendered per role and
concatenated in order; the number of rendered fragments is
`min 4 (length of history)` — so 4 fragments for a 5-turn history — and an
empty history leaves the query unchanged. -/
theorem C7_query_rewrite (query : String) (hist : List Msg)
    (hne : hist ≠ [])
    (hroles : ∀ m ∈ hist, m.role = "user" ∨ m.role = "assistant") :
    enhanceQueryWithHistory query hist
      = query ++ " [Context from conversation: "
          ++ pyJoin " " ((lastFour hist).filterMap renderMessage) ++ "]"
    ∧ ((lastFour hist).filterMap renderMessage).length = min 4 hist.length
    ∧ enhanceQueryWithHistory query [] = query := by
  have hsome : ∀ m ∈ lastFour hist, (renderMessage m).isSome := by
    intro m hm
    have hmem : m ∈ hist := List.mem_of_mem_drop hm
    rcases hroles m hmem with h | h <;> simp [renderMessage, h]
  have hlen : ((lastFour hist).filterMap renderMessage).length = min 4 hist.length := by
    rw [length_filterMap_of_isSome renderMessage _ hsome, lastFour_length]
  have hpos : 0 < hist.length := List.length_pos.mpr hne
  have hrne : (lastFour hist).filterMap renderMessage ≠ [] := by
    intro h
    have : ((lastFour hist).filterMap renderMessage).length = 0 := by rw [h]; rfl
    omega
  refine ⟨?_, hlen, rfl⟩
  simp only [enhanceQueryWithHistory, if_neg hne, if_neg hrne]

/-- C7 witness: a five-turn history; the rewritten query carries the last
four turns only, rendered in order, and the fragment count is 4. -/
theorem C7_witness :
    enhanceQueryWithHistory "q5"
        [⟨"user", "q1"⟩, ⟨"assistant", "a1"⟩, ⟨"user", "q2"⟩,
         ⟨"assistant", "a2"⟩, ⟨"user", "q3"⟩]
      = "q5" ++ " [Context from conversation: "
          ++ pyJoin " " ((lastFour
              [⟨"user", "q1"⟩, ⟨"assistant", "a1"⟩, ⟨"user", "q2"⟩,
               ⟨"assistant", "a2"⟩, ⟨"user", "q3"⟩]).filterMap renderMessage) ++ "]"
    ∧ ((lastFour
          [⟨"user", "q1"⟩, ⟨"assistant", "a1"⟩, ⟨"user", "q2"⟩,
           ⟨"assistant", "a2"⟩, ⟨"user", "q3"⟩]).filterMap renderMessage).length
        = min 4 (List.length
            [⟨"user", "q1"⟩, ⟨"assistant", "a1"⟩, ⟨"user", "q2"⟩,
             ⟨"assistant", "a2"⟩, (⟨"user", "q3"⟩ : Msg)])
    ∧ enhanceQueryWithHistory "q5" [] = "q5" :=
  C7_query_rewrite "q5" _ (by simp) (by decide)

/-! ## Reranking (`_rerank_results`)

A vector-search result dictionary, flattened: `score` is the vector-index
score, `cross_encoder_score` the rerank score set by `_rerank_results`,
the remaining fields come from the enriched metadata. -/

structure SearchResult where
  id : String
  score : ℚ
  cross_encoder_score : ℚ
  content : String
  document_id : String
  chunk_index : ℕ
  page_number : Option ℕ
  filename : String
  file_type : String
deriving DecidableEq

/-- The loop of `_rerank_results`: `result["cross_encoder_score"] =
result.get("score", 0.0)` (score identity). -/
def withCrossEncoderScore (r : SearchResult) : SearchResult :=
  { r with cross_encoder_score := r.score }

/-- Stable insertion step for descending order: a later element is placed
after every already-present element whose key is `≥` its own. -/
def insertByScoreDesc (x : SearchResult) : List SearchResult → List SearchResult
  | [] => [x]
  | y :: ys =>
      if y.cross_encoder_score ≤ x.cross_encoder_score then x :: y :: ys
      else y :: insertByScoreDesc x ys

/-- Python's `list.sort(key=…, reverse=True)`: the stable sort by
descending `cross_encoder_score` (equal keys keep their original order). -/
def sortByScoreDesc : List SearchResult → List SearchResult
  | [] => []
  | x :: xs => insertByScoreDesc x (sortByScoreDesc xs)

/-- `EnhancedVectorStoreService._rerank_results`: empty input short-circuits
to `[]`; otherwise every result's rerank score is set to its vector score,
the list is stable-sorted by descending rerank score, and the first `top_k`
are returned. -/
def rerankResults (results : List SearchResult) (topK : ℕ) : List SearchResult :=
  if results = [] then []
  else (sortByScoreDesc (results.map withCrossEncoderScore)).take topK

lemma mem_insertByScoreDesc (x a : SearchResult) :
    ∀ l, a ∈ insertByScoreDesc x l ↔ a = x ∨ a ∈ l := by
  intro l
  induction l with
  | nil => simp [insertByScoreDesc]
  | cons y ys ih =>
      by_cases h : y.cross_encoder_score ≤ x.cross_encoder_score
      · simp [insertByScoreDesc, h]
      · simp only [insertByScoreDesc, if_neg h, List.mem_cons, ih]
        tauto

lemma perm_insertByScoreDesc (x : SearchResult) :
    ∀ l, List.Perm (insertByScoreDesc x l) (x :: l) := by
  intro l
  induction l with
  | nil => simp [insertByScoreDesc]
  | cons y ys ih =>
      by_cases h : y.cross_encoder_score ≤ x.cross_encoder_score
      · simp [insertByScoreDesc, h]
      · rw [insertByScoreDesc, if_neg h]
        exact (ih.cons y).trans (List.Perm.swap x y ys)

lemma perm_sortByScoreDesc :
    ∀ l, List.Perm (sortByScoreDesc l) l := by
  intro l
  induction l with
  | nil => exact List.Perm.refl []
  | cons x xs ih =>
      exact (perm_insertByScoreDesc x (sortByScoreDesc xs)).trans (ih.cons x)

lemma pairwise_insertByScoreDesc (x : SearchResult) :
    ∀ l, List.Pairwise (fun a b => b.cross_encoder_score ≤ a.cross_encoder_score) l →
      List.Pairwise (fun a b => b.cross_encoder_score ≤ a.cross_encoder_score)
        (insertByScoreDesc x l) := by
  intro l
  induction l with
  | nil => intro _; simp [insertByScoreDesc]
  | cons y ys ih =>
      intro hp
      rw [List.pairwise_cons] at hp
      obtain ⟨hy, hys⟩ := hp
      by_cases h : y.cross_encoder_score ≤ x.cross_encoder_score
      · rw [insertByScoreDesc, if_pos h, List.pairwise_cons]
        refine ⟨?_, List.pairwise_cons.mpr ⟨hy, hys⟩⟩
        intro b hb
        rcases List.mem_cons.mp hb with rfl | hb
        · exact h
        · exact le_trans (hy b hb) h
      · rw [insertByScoreDesc, if_neg h, List.pairwise_cons]
        refine ⟨?_, ih hys⟩
        intro b hb
        rcases (mem_insertByScoreDesc x b ys).mp hb with rfl | hb
        · exact le_of_not_le h
        · exact hy b hb

lemma pairwise_sortByScoreDesc :
    ∀ l, List.Pairwise (fun a b => b.cross_encoder_score ≤ a.cross_encoder_score)
      (sortByScoreDesc l) := by
  intro l
  induction l with
  | nil => simp [sortByScoreDesc]
  | cons x xs ih => exact pairwise_insertByScoreDesc x (sortByScoreDesc xs) ih

lemma filter_insertByScoreDesc (k : ℚ) (x : SearchResult) :
    ∀ l, (insertByScoreDesc x l).filter (fun r => r.cross_encoder_score = k)
      = if x.cross_encoder_score = k
        then x :: l.filter (fun r => r.cross_encoder_score = k)
        else l.filter (fun r => r.cross_encoder_score = k) := by
  intro l
  induction l with
  | nil =>
      by_cases hx : x.cross_encoder_score = k <;>
        simp [insertByScoreDesc, List.filter, hx]
  | cons y ys ih =>
      by_cases h : y.cross_encoder_score ≤ x.cross_encoder_score
      · rw [insertByScoreDesc, if_pos h]
        by_cases hx : x.cross_encoder_score = k <;>
          simp [List.filter_cons, hx]
      · rw [insertByScoreDesc, if_neg h]
        by_cases hx : x.cross_encoder_score = k
        · have hy : ¬ y.cross_encoder_score = k := by
            intro hyk
            exact h (by rw [hyk, hx])
          rw [if_pos hx] at *
          simp [List.filter_cons, hy, ih, hx]
        · rw [if_neg hx] at *
          by_cases hy : y.cross_encoder_score = k <;>
            simp [List.filter_cons, hy, ih, hx]

lemma filter_sortByScoreDesc (k : ℚ) :
    ∀ l, (sortByScoreDesc l).filter (fun r => r.cross_encoder_score = k)
      = l.filter (fun r => r.cross_encoder_score = k) := by
  intro l
  induction l with
  | nil => rfl
  | cons x xs ih =>
      rw [sortByScoreDesc, filter_insertByScoreDesc, List.filter_cons]
      by_cases hx : x.cross_encoder_score = k <;> simp [hx, ih]

/-- C5: `_rerank_results` gives every candidate the rerank score equal to
its vector-index score, returns exactly the first `top_k` of the list
stable-sorted by descending rerank score, the output is sorted
descending, the sorted list is a permutation of the scored input, and for
each score value the candidates carrying it appear in their original
vector-index order (stable tie-break). -/
theorem C5_rerank_spec (results : List SearchResult) (topK : ℕ) :
    rerankResults results topK
        = (sortByScoreDesc (results.map withCrossEncoderScore)).take topK
    ∧ (∀ r ∈ rerankResults results topK, r.cross_encoder_score = r.score)
    ∧ List.Pairwise (fun a b => b.cross_encoder_score ≤ a.cross_encoder_score)
        (rerankResults results topK)
    ∧ List.Perm (sortByScoreDesc (results.map withCrossEncoderScore))
        (results.map withCrossEncoderScore)
    ∧ (∀ k : ℚ,
        (sortByScoreDesc (results.map withCrossEncoderScore)).filter
            (fun r => r.cross_encoder_score = k)
          = (results.map withCrossEncoderScore).filter
              (fun r => r.cross_encoder_score = k)) := by
  have hperm := perm_sortByScoreDesc (results.map withCrossEncoderScore)
  have heq : rerankResults results topK
      = (sortByScoreDesc (results.map withCrossEncoderScore)).take topK := by
    rcases results with _ | ⟨r, rs⟩
    · simp [rerankResults, sortByScoreDesc]
    · simp [rerankResults]
  refine ⟨heq, ?_, ?_, hperm, fun k => filter_sortByScoreDesc k _⟩
  · intro r hr
    rw [heq] at hr
    have hr2 : r ∈ sortByScoreDesc (results.map withCrossEncoderScore) :=
      List.take_subset topK _ hr
    have hr3 : r ∈ results.map withCrossEncoderScore := hperm.subset hr2
    obtain ⟨r0, _, rfl⟩ := List.mem_map.mp hr3
    rfl
  · rw [heq]
    exact (pairwise_sortByScoreDesc (results.map withCrossEncoderScore)).sublist
      (List.take_sublist topK _)

/-! ## Context assembly (`get_context_for_qa`)

The `source_info` dictionary built for every included chunk. -/

structure SourceInfo where
  document_id : String
  chunk_index : ℕ
  page_number : Option ℕ
  score : ℚ
  cross_encoder_score : ℚ
  filename : String
  file_type : String
deriving DecidableEq

def mkSourceInfo (r : SearchResult) : SourceInfo :=
  { document_id := r.document_id
    chunk_index := r.chunk_index
    page_number := r.page_number
    score := r.score
    cross_encoder_score := r.cross_encoder_score
    filename := r.filename
    file_type := r.file_type }

/-- The accumulation loop of `get_context_for_qa`: walking the search
results in order it collects `context_parts`, `sources` and
`current_length`, breaking (and dropping every remaining candidate) at the
first chunk whose content would push the character count past the budget. -/
def contextLoop : List SearchResult → ℕ → ℕ → List String × List SourceInfo × ℕ
  | [], _, current_length => ([], [], current_length)
  | r :: rest, maxLen, current_length =>
      if maxLen < current_length + r.content.length then ([], [], current_length)
      else
        let out := contextLoop rest maxLen (current_length + r.content.length)
        (r.content :: out.1, mkSourceInfo r :: out.2.1, out.2.2)

/-- The list of results actually included by `contextLoop` (the prefix that
fits the budget). -/
def selectForContext : List SearchResult → ℕ → ℕ → List SearchResult
  | [], _, _ => []
  | r :: rest, maxLen, current_length =>
      if maxLen < current_length + r.content.length then []
      else r :: selectForContext rest maxLen (current_length + r.content.length)

/-- Return value of `EnhancedVectorStoreService.get_context_for_qa` given
the (already reranked) search results: the included contents joined with
`"\n\n"`, the mirrored sources list, the accumulated character count and
the total result count. -/
structure QAContext where
  context : String
  sources : List SourceInfo
  context_length : ℕ
  total_results : ℕ
deriving DecidableEq

def getContextForQA (searchResults : List SearchResult) (maxLen : ℕ) : QAContext :=
  let out := contextLoop searchResults maxLen 0
  { context := pyJoin "\n\n" out.1
    sources := out.2.1
    context_length := out.2.2
    total_results := searchResults.length }

/-- Sum of the content lengths of a result list. -/
def sumContentLengths (l : List SearchResult) : ℕ :=
  (l.map (fun r => r.content.length)).sum

lemma contextLoop_eq (maxLen : ℕ) :
    ∀ (l : List SearchResult) (cur : ℕ),
      contextLoop l maxLen cur
        = ((selectForContext l maxLen cur).map (fun r => r.content),
           (selectForContext l maxLen cur).map mkSourceInfo,
           cur + sumContentLengths (selectForContext l maxLen cur)) := by
  intro l
  induction l with
  | nil => intro cur; simp [contextLoop, selectForContext, sumContentLengths]
  | cons r rest ih =>
      intro cur
      by_cases h : maxLen < cur + r.content.length
      · simp [contextLoop, selectForContext, h, sumContentLengths]
      · simp only [contextLoop, selectForContext, if_neg h, ih, List.map_cons,
          Prod.mk.injEq]
        refine ⟨trivial, trivial, ?_⟩
        simp only [sumContentLengths, List.map_cons, List.sum_cons]
        omega

lemma selectForContext_isPrefixOf (maxLen : ℕ) :
    ∀ (l : List SearchResult) (cur : ℕ), selectForContext l maxLen cur <+: l := by
  intro l
  induction l with
  | nil => intro cur; exact List.nil_prefix
  | cons r rest ih =>
      intro cur
      by_cases h : maxLen < cur + r.content.length
      · rw [selectForContext, if_pos h]
        exact ⟨r :: rest, rfl⟩
      · rw [selectForContext, if_neg h]
        obtain ⟨t, ht⟩ := ih (cur + r.content.length)
        exact ⟨t, by rw [List.cons_append, ht]⟩

lemma selectForContext_budget (maxLen : ℕ) :
    ∀ (l : List SearchResult) (cur : ℕ), cur ≤ maxLen →
      cur + sumContentLengths (selectForContext l maxLen cur) ≤ maxLen := by
  intro l
  induction l with
  | nil => intro cur h; simpa [selectForContext, sumContentLengths] using h
  | cons r rest ih =>
      intro cur h
      by_cases hb : maxLen < cur + r.content.length
      · simpa [selectForContext, hb, sumContentLengths] using h
      · rw [selectForContext, if_neg hb]
        have := ih (cur + r.content.length) (by omega)
        simp only [sumContentLengths, List.map_cons, List.sum_cons] at *
        omega

lemma selectForContext_first_dropped (maxLen : ℕ) (r : SearchResult)
    (rest : List SearchResult) :
    ∀ (l : List SearchResult) (cur : ℕ),
      l = selectForContext l maxLen cur ++ r :: rest →
      maxLen < cur + sumContentLengths (selectForContext l maxLen cur)
        + r.content.length := by
  intro l
  induction l with
  | nil => intro cur h; exact absurd h (by simp)
  | cons x xs ih =>
      intro cur h
      by_cases hb : maxLen < cur + x.content.length
      · rw [selectForContext, if_pos hb] at h ⊢
        simp only [List.nil_append] at h
        injection h with h1 h2
        subst h1
        simpa [sumContentLengths] using hb
      · rw [selectForContext, if_neg hb] at h ⊢
        have hx : xs = selectForContext xs maxLen (cur + x.content.length)
            ++ r :: rest := by
          injection h
        have := ih (cur + x.content.length) hx
        simp only [sumContentLengths, List.map_cons, List.sum_cons] at *
        omega

/-- C2: `get_context_for_qa` includes a prefix of the reranked results whose
total content length fits the budget, stops at the first chunk whose content
would push the accumulated character count past `max_context_length`
(dropping it and all remaining candidates, never truncating a chunk), and
the sources list mirrors exactly the included chunks; with three chunks of
content length 1000 and a budget of 2500, exactly the first two chunks are
included. -/
theorem C2_context_budget (results : List SearchResult) (maxLen : ℕ) :
    (getContextForQA results maxLen).sources
        = (selectForContext results maxLen 0).map mkSourceInfo
    ∧ (getContextForQA results maxLen).context
        = pyJoin "\n\n" ((selectForContext results maxLen 0).map (fun r => r.content))
    ∧ selectForContext results maxLen 0 <+: results
    ∧ sumContentLengths (selectForContext results maxLen 0) ≤ maxLen
    ∧ (∀ (r : SearchResult) (rest : List SearchResult),
        results = selectForContext results maxLen 0 ++ r :: rest →
        maxLen < sumContentLengths (selectForContext results maxLen 0)
          + r.content.length)
    ∧ (∀ r1 r2 r3 : SearchResult, r1.content.length = 1000 →
        r2.content.length = 1000 → r3.content.length = 1000 →
        selectForContext [r1, r2, r3] 2500 0 = [r1, r2]) := by
  refine ⟨?_, ?_, selectForContext_isPrefixOf maxLen results 0,
    by simpa using selectForContext_budget maxLen results 0 (Nat.zero_le maxLen),
    ?_, ?_⟩
  · simp [getContextForQA, contextLoop_eq]
  · simp [getContextForQA, contextLoop_eq]
  · intro r rest h
    simpa using selectForContext_first_dropped maxLen r rest results 0 h
  · intro r1 r2 r3 h1 h2 h3
    rw [selectForContext, if_neg (by omega), selectForContext, if_neg (by omega),
      selectForContext, if_pos (by omega)]

/-- A 1000-character chunk content. -/
def kiloA : String := ⟨List.replicate 1000 'a'⟩

lemma kiloA_length : kiloA.length = 1000 := by
  show (List.replicate 1000 'a').length = 1000
  exact List.length_replicate 1000 'a'

/-- A search result with content `kiloA` at chunk index `i`. -/
def kiloRes (i : ℕ) : SearchResult :=
  { id := "", score := 0, cross_encoder_score := 0, content := kiloA
    document_id := "d", chunk_index := i, page_number := none
    filename := "f", file_type := "pdf" }

lemma kiloRes_content_length (i : ℕ) : (kiloRes i).content.length = 1000 :=
  kiloA_length

/-- C2 witness: three 1000-character chunks under a 2500-character budget —
exactly the first two are included, the sources mirror them, the included
total (2000) respects the budget and the dropped third chunk would have
exceeded it. -/
theorem C2_witness :
    selectForContext [kiloRes 1, kiloRes 2, kiloRes 3] 2500 0
        = [kiloRes 1, kiloRes 2]
    ∧ (getContextForQA [kiloRes 1, kiloRes 2, kiloRes 3] 2500).sources
        = [mkSourceInfo (kiloRes 1), mkSourceInfo (kiloRes 2)]
    ∧ sumContentLengths (selectForContext [kiloRes 1, kiloRes 2, kiloRes 3] 2500 0)
        ≤ 2500
    ∧ 2500 < sumContentLengths (selectForContext [kiloRes 1, kiloRes 2, kiloRes 3] 2500 0)
        + (kiloRes 3).content.length := by
  obtain ⟨hs, _, _, hbud, hdrop, hinst⟩ :=
    C2_context_budget [kiloRes 1, kiloRes 2, kiloRes 3] 2500
  have hsel : selectForContext [kiloRes 1, kiloRes 2, kiloRes 3] 2500 0
      = [kiloRes 1, kiloRes 2] :=
    hinst (kiloRes 1) (kiloRes 2) (kiloRes 3) (kiloRes_content_length 1)
      (kiloRes_content_length 2) (kiloRes_content_length 3)
  refine ⟨hsel, ?_, hbud, hdrop (kiloRes 3) [] (by rw [hsel]; rfl)⟩
  rw [hs, hsel]
  rfl

lemma pyJoin_length (sep : String) :
    ∀ l : List String, l ≠ [] →
      (pyJoin sep l).length = (l.map String.length).sum + sep.length * (l.length - 1) := by
  intro l
  induction l with
  | nil => intro h; exact absurd rfl h
  | cons s rest ih =>
      intro _
      cases rest with
      | nil => simp [pyJoin]
      | cons s' rest' =>
          rw [pyJoin, String.length_append, String.length_append,
            ih (by simp)]
          simp only [List.map_cons, List.sum_cons, List.length_cons,
            Nat.add_sub_cancel, Nat.mul_succ]
          omega

/-- C10: when `get_context_for_qa` includes `n ≥ 1` chunks, the returned
context string is the included contents joined with the two-character
separator `"\n\n"`, its length is `context_length + 2*(n-1)` (the reported
`context_length` counts only chunk characters), and therefore the context
string itself never exceeds `max_context_length` by more than `2*(n-1)`
characters. -/
theorem C10_separator_accounting (results : List SearchResult) (maxLen n : ℕ)
    (hn : (getContextForQA results maxLen).sources.length = n) (h1 : 1 ≤ n) :
    (getContextForQA results maxLen).context.length
        = (getContextForQA results maxLen).context_length + 2 * (n - 1)
    ∧ (getContextForQA results maxLen).context.length ≤ maxLen + 2 * (n - 1) := by
  have hlen : (selectForContext results maxLen 0).length = n := by
    rw [← hn]
    simp [getContextForQA, contextLoop_eq]
  have hne : (selectForContext results maxLen 0).map (fun r => r.content) ≠ [] := by
    intro h
    have := congrArg List.length h
    simp only [List.length_map, List.length_nil, hlen] at this
    omega
  have hctx : (getContextForQA results maxLen).context
      = pyJoin "\n\n" ((selectForContext results maxLen 0).map (fun r => r.content)) := by
    simp [getContextForQA, contextLoop_eq]
  have hcl : (getContextForQA results maxLen).context_length
      = sumContentLengths (selectForContext results maxLen 0) := by
    simp [getContextForQA, contextLoop_eq]
  have hsum : (((selectForContext results maxLen 0).map (fun r => r.content)).map
      String.length).sum = sumContentLengths (selectForContext results maxLen 0) := by
    simp [sumContentLengths, List.map_map, Function.comp_def]
  have hjoin := pyJoin_length "\n\n" _ hne
  rw [hsum, List.length_map, hlen] at hjoin
  have hsep : ("\n\n" : String).length = 2 := rfl
  rw [hsep] at hjoin
  have hbud := selectForContext_budget maxLen results 0 (Nat.zero_le maxLen)
  constructor
  · rw [hctx, hjoin, hcl]
  · rw [hctx, hjoin]
    omega

/-- A search result with the given two-character content. -/
def tinyRes (c : String) : SearchResult :=
  { id := "", score := 0, cross_encoder_score := 0, content := c
    document_id := "d", chunk_index := 0, page_number := none
    filename := "f", file_type := "txt" }

/-- C10 witness: two included chunks "ab" and "cd" under budget 10 — the
context string "ab\n\ncd" has length 6 = context_length 4 plus one
two-character separator, and stays within budget + 2. -/
theorem C10_witness :
    (getContextForQA [tinyRes "ab", tinyRes "cd"] 10).context.length
        = (getContextForQA [tinyRes "ab", tinyRes "cd"] 10).context_length + 2 * (2 - 1)
    ∧ (getContextForQA [tinyRes "ab", tinyRes "cd"] 10).context.length
        ≤ 10 + 2 * (2 - 1) :=
  C10_separator_accounting [tinyRes "ab", tinyRes "cd"] 10 2 (by rfl) (by norm_num)

/-! ## Chunking-time metadata filtering
(`DocumentIngestor._filter_metadata_for_chunking`)

The input metadata dictionary is an association list whose values are
either a Python value rendered by `str(…)` (`some s`) or Python `None`
(`none`).  `h` models `str(hash(…))`, the decimal rendering of Python's
64-bit `hash` (so `(h s).length ≤ 20` — up to 19 digits and a sign). -/

/-- Python string slicing `s[:n]`. -/
def pyTake (s : String) (n : ℕ) : String := ⟨s.data.take n⟩

lemma pyTake_length (s : String) (n : ℕ) : (pyTake s n).length ≤ n := by
  show (s.data.take n).length ≤ n
  simp [List.length_take]

/-- `str(metadata.get(key, ""))`: the rendered value, `"None"` for a stored
Python `None`, `""` when the key is missing. -/
def pyGetStr (m : List (String × Option String)) (key : String) : String :=
  match m.lookup key with
  | some (some s) => s
  | some none => "None"
  | none => ""

/-- One iteration of the `minimal_keys` loop: a present, non-`None` value
is stringified and truncated to 50 characters; otherwise no entry is
produced. -/
def minimalEntry (m : List (String × Option String)) (key : String) :
    Option (String × String) :=
  match m.lookup key with
  | some (some s) => some (key, pyTake s 50)
  | some none => none
  | none => none

/-- The `chunk_id` value `f"chunk_{hash(str(metadata.get('document_id', '')))}"`. -/
def chunkIdValue (h : String → String) (m : List (String × Option String)) : String :=
  "chunk_" ++ h (pyGetStr m "document_id")

/-- The dictionary built by the first phase of
`_filter_metadata_for_chunking` (three truncated minimal keys plus
`chunk_id`), in insertion order. -/
def filterFirstPass (h : String → String) (m : List (String × Option String)) :
    List (String × String) :=
  (minimalEntry m "document_id").toList
    ++ (minimalEntry m "content_type").toList
    ++ (minimalEntry m "hierarchical_level").toList
    ++ [("chunk_id", chunkIdValue h m)]

/-- Python's `repr` of one string-valued dictionary item, `'key': 'value'`. -/
def pyReprEntry (e : String × String) : String :=
  "\x27" ++ e.1 ++ "\x27: \x27" ++ e.2 ++ "\x27"

def pyReprEntries : List (String × String) → String
  | [] => ""
  | [e] => pyReprEntry e
  | e :: e' :: rest => pyReprEntry e ++ ", " ++ pyReprEntries (e' :: rest)

/-- Python's `str(…)` on a string-valued dictionary. -/
def pyDictRepr (l : List (String × String)) : String :=
  "\x7b" ++ pyReprEntries l ++ "\x7d"

/-- `DocumentIngestor._filter_metadata_for_chunking`: if the serialized
first-phase dictionary exceeds the 800-character safety margin it is
reduced to 20-character `document_id`/`content_type` plus `chunk_id`. -/
def filterMetadataForChunking (h : String → String)
    (m : List (String × Option String)) : List (String × String) :=
  let filtered := filterFirstPass h m
  if 800 < (pyDictRepr filtered).length then
    [("document_id", pyTake (pyGetStr m "document_id") 20),
     ("content_type", pyTake (pyGetStr m "content_type") 20),
     ("chunk_id", chunkIdValue h m)]
  else filtered

/-- The chunk sizes configured for the hierarchical chunker in
`DocumentIngestor.__init__`. -/
def chunkSizes : List ℕ := [4096, 2048, 1024]

lemma mem_minimalEntry (m : List (String × Option String)) (key k : String)
    (v : String) (hmem : (k, v) ∈ (minimalEntry m key).toList) :
    k = key ∧ v.length ≤ 50 := by
  unfold minimalEntry at hmem
  rcases hlk : m.lookup key with _ | ov
  · rw [hlk] at hmem; simp at hmem
  · rcases ov with _ | s
    · rw [hlk] at hmem; simp at hmem
    · rw [hlk] at hmem
      simp only [Option.toList_some, List.mem_singleton, Prod.mk.injEq] at hmem
      obtain ⟨rfl, rfl⟩ := hmem
      exact ⟨rfl, pyTake_length s 50⟩

lemma pyReprEntry_length (k v : String) :
    (pyReprEntry (k, v)).length = k.length + v.length + 6 := by
  have h1 : ("\x27" : String).length = 1 := rfl
  have h2 : ("\x27: \x27" : String).length = 4 := rfl
  simp only [pyReprEntry, String.length_append, h1, h2]
  omega

lemma chunkIdValue_length (h : String → String) (m : List (String × Option String))
    (hh : ∀ s, (h s).length ≤ 20) : (chunkIdValue h m).length ≤ 26 := by
  have h6 : ("chunk_" : String).length = 6 := rfl
  have := hh (pyGetStr m "document_id")
  simp only [chunkIdValue, String.length_append, h6]
  omega

/-- C6: the filtered chunking-time metadata has keys among
`{document_id, content_type, hierarchical_level, chunk_id}` with the three
minimal values truncated to at most 50 characters; when the serialized
first phase exceeds the 800-character margin the dictionary is reduced to
20-character `document_id`/`content_type` plus `chunk_id`; and (with the
hash rendered on at most 20 characters, as Python's 64-bit hash is) the
serialized filtered metadata is always strictly shorter than 1024, the
smallest configured chunk size. -/
theorem C6_metadata_filter (h : String → String)
    (m : List (String × Option String)) :
    (∀ k v, (k, v) ∈ filterMetadataForChunking h m →
      k ∈ ["document_id", "content_type", "hierarchical_level", "chunk_id"])
    ∧ (∀ k v, (k, v) ∈ filterMetadataForChunking h m → ¬ k = "chunk_id" →
        v.length ≤ 50)
    ∧ (800 < (pyDictRepr (filterFirstPass h m)).length →
        filterMetadataForChunking h m
          = [("document_id", pyTake (pyGetStr m "document_id") 20),
             ("content_type", pyTake (pyGetStr m "content_type") 20),
             ("chunk_id", chunkIdValue h m)])
    ∧ ((∀ s, (h s).length ≤ 20) →
        (pyDictRepr (filterMetadataForChunking h m)).length < 1024
          ∧ ∀ c ∈ chunkSizes, (pyDictRepr (filterMetadataForChunking h m)).length < c) := by
  have hmemFirst : ∀ k v, (k, v) ∈ filterFirstPass h m →
      (k = "document_id" ∨ k = "content_type" ∨ k = "hierarchical_level"
        ∨ k = "chunk_id") ∧ (¬ k = "chunk_id" → v.length ≤ 50) := by
    intro k v hmem
    simp only [filterFirstPass, List.mem_append, List.mem_singleton,
      Prod.mk.injEq] at hmem
    rcases hmem with ((hd | hc) | hh) | ⟨hk, _⟩
    · obtain ⟨rfl, hv⟩ := mem_minimalEntry m _ k v hd
      exact ⟨Or.inl rfl, fun _ => hv⟩
    · obtain ⟨rfl, hv⟩ := mem_minimalEntry m _ k v hc
      exact ⟨Or.inr (Or.inl rfl), fun _ => hv⟩
    · obtain ⟨rfl, hv⟩ := mem_minimalEntry m _ k v hh
      exact ⟨Or.inr (Or.inr (Or.inl rfl)), fun _ => hv⟩
    · subst hk
      exact ⟨Or.inr (Or.inr (Or.inr rfl)), fun hne => absurd rfl hne⟩
  by_cases hbig : 800 < (pyDictRepr (filterFirstPass h m)).length
  · have hred : filterMetadataForChunking h m
        = [("document_id", pyTake (pyGetStr m "document_id") 20),
           ("content_type", pyTake (pyGetStr m "content_type") 20),
           ("chunk_id", chunkIdValue h m)] := by
      rw [filterMetadataForChunking, if_pos hbig]
    refine ⟨?_, ?_, fun _ => hred, ?_⟩
    · intro k v hmem
      rw [hred] at hmem
      simp only [List.mem_cons, List.mem_singleton, Prod.mk.injEq] at hmem
      rcases hmem with ⟨rfl, _⟩ | ⟨rfl, _⟩ | (⟨rfl, _⟩ | hfalse)
      · simp
      · simp
      · simp
      · simp at hfalse
    · intro k v hmem hne
      rw [hred] at hmem
      simp only [List.mem_cons, List.mem_singleton, Prod.mk.injEq] at hmem
      rcases hmem with ⟨rfl, rfl⟩ | ⟨rfl, rfl⟩ | (⟨rfl, rfl⟩ | hfalse)
      · exact le_trans (pyTake_length _ 20) (by norm_num)
      · exact le_trans (pyTake_length _ 20) (by norm_num)
      · exact absurd rfl hne
      · simp at hfalse
    · intro hh
      have hb : (pyDictRepr (filterMetadataForChunking h m)).length < 1024 := by
        rw [hred]
        have e1 := pyReprEntry_length "document_id"
          (pyTake (pyGetStr m "document_id") 20)
        have e2 := pyReprEntry_length "content_type"
          (pyTake (pyGetStr m "content_type") 20)
        have e3 := pyReprEntry_length "chunk_id" (chunkIdValue h m)
        have t1 := pyTake_length (pyGetStr m "document_id") 20
        have t2 := pyTake_length (pyGetStr m "content_type") 20
        have t3 := chunkIdValue_length h m hh
        have hk1 : ("document_id" : String).length = 11 := rfl
        have hk2 : ("content_type" : String).length = 12 := rfl
        have hk3 : ("chunk_id" : String).length = 8 := rfl
        have hbr : ("\x7b" : String).length = 1 := rfl
        have hbr2 : ("\x7d" : String).length = 1 := rfl
        have hcomma : (", " : String).length = 2 := rfl
        simp only [pyDictRepr, pyReprEntries, String.length_append, hbr, hbr2,
          hcomma, e1, e2, e3, hk1, hk2, hk3]
        omega
      refine ⟨hb, ?_⟩
      intro c hc
      simp only [chunkSizes, List.mem_cons, List.not_mem_nil, or_false] at hc
      rcases hc with rfl | rfl | rfl <;> omega
  · have hkeep : filterMetadataForChunking h m = filterFirstPass h m := by
      rw [filterMetadataForChunking, if_neg hbig]
    refine ⟨?_, ?_, fun habs => absurd habs hbig, ?_⟩
    · intro k v hmem
      rw [hkeep] at hmem
      rcases (hmemFirst k v hmem).1 with rfl | rfl | rfl | rfl <;> simp
    · intro k v hmem hne
      rw [hkeep] at hmem
      exact (hmemFirst k v hmem).2 hne
    · intro _
      have hb : (pyDictRepr (filterMetadataForChunking h m)).length < 1024 := by
        rw [hkeep]; omega
      refine ⟨hb, ?_⟩
      intro c hc
      simp only [chunkSizes, List.mem_cons, List.not_mem_nil, or_false] at hc
      rcases hc with rfl | rfl | rfl <;> omega

/-- A sample rich metadata dictionary for the witness. -/
def mWitness : List (String × Option String) :=
  [("document_id", some "doc-42"), ("content_type", some "header"),
   ("hierarchical_level", some "0"), ("page_number", some "3"),
   ("llmsherpa_bbox", none)]

/-- C6 witness: the bound evaluated with a concrete single-digit hash
rendering and the sample metadata. -/
theorem C6_witness :
    (pyDictRepr (filterMetadataForChunking (fun _ => "1") mWitness)).length < 1024
    ∧ ∀ c ∈ chunkSizes,
        (pyDictRepr (filterMetadataForChunking (fun _ => "1") mWitness)).length < c :=
  (C6_metadata_filter (fun _ => "1") mWitness).2.2.2 (fun s => by decide)

end DocuVerse

namespace DocuVerse

/-! ## Weighted progress accounting over a whole ingestion task (C1)

An ingestion task is a sequence of `ProgressManager` calls.  `PMOp` is one
call, `taskOps` the canonical four-stage task shape driven by
`DocumentIngestor.ingest` / `_ingest_with_llmsherpa`: each of parsing,
chunking, embedding and storage is started, updated some number of times
with `(current, total)` counters, and completed. -/

inductive PMOp where
  | start : String → PMOp
  | update : ℕ → ℕ → PMOp
  | complete : String → PMOp
deriving DecidableEq

def pmStep (s : PMState) : PMOp → PMState
  | PMOp.start n => start_stage n s
  | PMOp.update c t => update_stage_progress c t s
  | PMOp.complete n => complete_stage n s

def runOps (s : PMState) (ops : List PMOp) : PMState := ops.foldl pmStep s

/-- The successive `total_progress` values observed along a call sequence,
starting with the initial state's value. -/
def totalsTrace (s : PMState) (ops : List PMOp) : List ℚ :=
  (List.scanl pmStep s ops).map PMState.total_progress

/-- One stage of an ingestion task: `start_stage`, the stage's
`update_stage_progress` calls, `complete_stage`. -/
def stageOps (name : String) (ups : List (ℕ × ℕ)) : List PMOp :=
  PMOp.start name :: ((ups.map fun p => PMOp.update p.1 p.2) ++ [PMOp.complete name])

/-- A full ingestion task: the four stages in pipeline order, each started
and completed, with the given per-stage update calls. -/
def taskOps (pu cu eu su : List (ℕ × ℕ)) : List PMOp :=
  stageOps "parsing" pu ++ stageOps "chunking" cu
    ++ stageOps "embedding" eu ++ stageOps "storage" su

/-- Update calls as actually issued: positive totals and `current ≤ total`. -/
def validUpdates (ups : List (ℕ × ℕ)) : Prop :=
  ∀ p ∈ ups, 0 < p.2 ∧ p.1 ≤ p.2

/-- Successive update calls of one stage report non-decreasing completion
ratios. -/
def ratiosMono (ups : List (ℕ × ℕ)) : Prop :=
  List.Chain' (fun p q => (p.1 : ℚ) / (p.2 : ℚ) ≤ (q.1 : ℚ) / (q.2 : ℚ)) ups

/-- The embedding-stage update sequence emitted by
`CustomHierarchicalNodeParser.get_nodes_from_documents` for one document:
`(1,1)` after the document counter, then `(0,1)` when level 0 starts
processing — the per-level counter reset. -/
def badTask : List PMOp :=
  taskOps [(0, 1), (1, 1)] [] [(1, 1), (0, 1), (1, 1)] []

end DocuVerse

namespace DocuVerse

lemma totalsTrace_nil (s : PMState) : totalsTrace s [] = [s.total_progress] := rfl

lemma totalsTrace_cons (s : PMState) (op : PMOp) (ops : List PMOp) :
    totalsTrace s (op :: ops)
      = s.total_progress :: totalsTrace (pmStep s op) ops := by
  simp [totalsTrace, List.scanl]

lemma totalsTrace_head (s : PMState) (ops : List PMOp) :
    (totalsTrace s ops).head? = some s.total_progress := by
  cases ops <;> simp [totalsTrace, List.scanl]

lemma runOps_nil (s : PMState) : runOps s [] = s := rfl

lemma runOps_cons (s : PMState) (op : PMOp) (ops : List PMOp) :
    runOps s (op :: ops) = runOps (pmStep s op) ops := rfl

lemma runOps_append (s : PMState) (l1 l2 : List PMOp) :
    runOps s (l1 ++ l2) = runOps (runOps s l1) l2 := by
  simp [runOps, List.foldl_append]

/-- Totals traces of consecutive call blocks glue into one non-decreasing
trace: the second block's trace starts at the state the first block ends
in. -/
lemma chain_totalsTrace_append (s : PMState) (l1 l2 : List PMOp)
    (h1 : List.Chain' (· ≤ ·) (totalsTrace s l1))
    (h2 : List.Chain' (· ≤ ·) (totalsTrace (runOps s l1) l2)) :
    List.Chain' (· ≤ ·) (totalsTrace s (l1 ++ l2)) := by
  induction l1 generalizing s with
  | nil => simpa [runOps_nil] using h2
  | cons op ops ih =>
      rw [runOps_cons] at h2
      rw [totalsTrace_cons, List.chain'_cons'] at h1
      rw [List.cons_append, totalsTrace_cons, List.chain'_cons']
      refine ⟨?_, ih (pmStep s op) h1.2 h2⟩
      intro y hy
      rw [totalsTrace_head, Option.mem_def, Option.some.injEq] at hy
      subst hy
      have := h1.1 (pmStep s op).total_progress
      rw [totalsTrace_head] at this
      exact this rfl

lemma totalOf_parsing (sp : ℚ) :
    totalOf ["parsing"] "parsing" sp = sp * (1/5) := by
  simp [totalOf, stageWeights, stageContrib]
  ring

lemma totalOf_chunking (sp : ℚ) :
    totalOf ["chunking", "parsing"] "chunking" sp = 20 + sp * (3/10) := by
  simp [totalOf, stageWeights, stageContrib]
  ring

lemma totalOf_embedding (sp : ℚ) :
    totalOf ["embedding", "chunking", "parsing"] "embedding" sp
      = 50 + sp * (3/10) := by
  simp [totalOf, stageWeights, stageContrib]
  ring

lemma totalOf_storage (sp : ℚ) :
    totalOf ["storage", "embedding", "chunking", "parsing"] "storage" sp
      = 80 + sp * (1/5) := by
  simp [totalOf, stageWeights, stageContrib]
  ring

end DocuVerse

namespace DocuVerse

/-- Walking one stage: from a state currently in stage `n` with started set
`L`, stage percentage `r` and the weighted total `base + r*w` (where
`totalOf L n` is affine with slope `w`), valid updates with non-decreasing
ratios keep the observed totals non-decreasing, and `complete_stage` ends
the stage at `base + 100*w` with stage percentage 100. -/
lemma stage_chain (n : String) (L : List String) (base w : ℚ) (hw : 0 ≤ w)
    (hT : ∀ sp, totalOf L n sp = base + sp * w) :
    ∀ (ups : List (ℕ × ℕ)) (s : PMState) (r : ℚ),
      s.current_stage = n → s.started = L → s.stage_progress = r →
      s.total_progress = base + r * w → 0 ≤ r → r ≤ 100 →
      validUpdates ups → ratiosMono ups →
      (∀ p ∈ ups.head?, r / 100 ≤ (p.1 : ℚ) / (p.2 : ℚ)) →
      List.Chain' (· ≤ ·)
          (totalsTrace s ((ups.map fun p => PMOp.update p.1 p.2) ++ [PMOp.complete n]))
        ∧ runOps s ((ups.map fun p => PMOp.update p.1 p.2) ++ [PMOp.complete n])
          = { current_stage := n, stage_progress := 100,
              total_progress := base + 100 * w, started := L } := by
  intro ups
  induction ups with
  | nil =>
      intro s r hcur hst hsp htot hr0 hr100 _ _ _
      have hcomp : pmStep s (PMOp.complete n)
          = { current_stage := n, stage_progress := 100,
              total_progress := base + 100 * w, started := L } := by
        show complete_stage n s = _
        rw [complete_stage, updateTotalProgress]
        obtain ⟨cs, sp, tp, st⟩ := s
        simp only at hcur hst
        subst hcur hst
        simp only [PMState.mk.injEq]
        exact ⟨trivial, trivial, by rw [hT], trivial⟩
      constructor
      · simp only [List.map_nil, List.nil_append]
        rw [totalsTrace_cons, hcomp, totalsTrace_nil]
        refine List.chain'_cons.mpr ⟨?_, List.chain'_singleton _⟩
        rw [htot]
        exact add_le_add_left (mul_le_mul_of_nonneg_right hr100 hw) base
      · simp only [List.map_nil, List.nil_append]
        rw [runOps_cons, hcomp, runOps_nil]
  | cons p ups ih =>
      obtain ⟨c, t⟩ := p
      intro s r hcur hst hsp htot hr0 hr100 hval hmono hhead
      obtain ⟨ht, hct⟩ := hval (c, t) (List.mem_cons_self _ _)
      have ht0 : (0 : ℚ) < (t : ℚ) := by exact_mod_cast ht
      have hrat0 : (0 : ℚ) ≤ (c : ℚ) / (t : ℚ) :=
        div_nonneg (Nat.cast_nonneg c) (le_of_lt ht0)
      have hrat1 : (c : ℚ) / (t : ℚ) ≤ 1 :=
        (div_le_one ht0).mpr (by exact_mod_cast hct)
      have hupd : pmStep s (PMOp.update c t)
          = { current_stage := n, stage_progress := (c : ℚ) / (t : ℚ) * 100,
              total_progress := base + ((c : ℚ) / (t : ℚ) * 100) * w,
              started := L } := by
        show update_stage_progress c t s = _
        rw [update_stage_progress, if_pos ht, updateTotalProgress]
        obtain ⟨cs, sp, tp, st⟩ := s
        simp only at hcur hst
        subst hcur hst
        simp only [PMState.mk.injEq]
        exact ⟨trivial, trivial, by rw [hT], trivial⟩
      have hr'0 : (0 : ℚ) ≤ (c : ℚ) / (t : ℚ) * 100 := by positivity
      have hr'100 : (c : ℚ) / (t : ℚ) * 100 ≤ 100 := by nlinarith
      have hmono' := List.chain'_cons'.mp hmono
      have hih := ih (pmStep s (PMOp.update c t)) ((c : ℚ) / (t : ℚ) * 100)
        (by rw [hupd]) (by rw [hupd]) (by rw [hupd]) (by rw [hupd])
        hr'0 hr'100
        (fun q hq => hval q (List.mem_cons_of_mem _ hq)) hmono'.2
        (by
          intro q hq
          have := hmono'.1 q hq
          calc (c : ℚ) / (t : ℚ) * 100 / 100 = (c : ℚ) / (t : ℚ) := by ring
            _ ≤ (q.1 : ℚ) / (q.2 : ℚ) := this)
      have hle : s.total_progress ≤ (pmStep s (PMOp.update c t)).total_progress := by
        rw [hupd, htot]
        have h1 : r ≤ (c : ℚ) / (t : ℚ) * 100 := by
          have h2 := hhead (c, t) rfl
          have h3 := mul_le_mul_of_nonneg_right h2 (by norm_num : (0:ℚ) ≤ 100)
          calc r = r / 100 * 100 := by ring
            _ ≤ (c : ℚ) / (t : ℚ) * 100 := h3
        exact add_le_add_left (mul_le_mul_of_nonneg_right h1 hw) base
      constructor
      · simp only [List.map_cons, List.cons_append]
        rw [totalsTrace_cons, List.chain'_cons']
        refine ⟨?_, hih.1⟩
        intro y hy
        rw [totalsTrace_head, Option.mem_def, Option.some.injEq] at hy
        subst hy
        exact hle
      · simp only [List.map_cons, List.cons_append]
        rw [runOps_cons]
        exact hih.2

/-- One whole stage (`start_stage`, updates, `complete_stage`) from a state
whose previously-accumulated total is `base`. -/
lemma chain_stageOps (n : String) (L : List String) (base w : ℚ) (hw : 0 ≤ w)
    (hT : ∀ sp, totalOf (n :: L) n sp = base + sp * w)
    (ups : List (ℕ × ℕ)) (s : PMState)
    (hst : s.started = L) (htot : s.total_progress = base)
    (hval : validUpdates ups) (hmono : ratiosMono ups) :
    List.Chain' (· ≤ ·) (totalsTrace s (stageOps n ups))
      ∧ runOps s (stageOps n ups)
        = { current_stage := n, stage_progress := 100,
            total_progress := base + 100 * w, started := n :: L } := by
  have h := stage_chain n (n :: L) base w hw hT ups (start_stage n s) 0
    rfl (by show n :: s.started = n :: L; rw [hst]) rfl
    (by show s.total_progress = base + 0 * w; rw [htot]; ring)
    le_rfl (by norm_num) hval hmono
    (by
      intro q _
      rw [zero_div]
      exact div_nonneg (Nat.cast_nonneg _) (Nat.cast_nonneg _))
  have hstep : pmStep s (PMOp.start n) = start_stage n s := rfl
  constructor
  · rw [stageOps, totalsTrace_cons, List.chain'_cons']
    refine ⟨?_, by rw [hstep]; exact h.1⟩
    intro y hy
    rw [totalsTrace_head, Option.mem_def, Option.some.injEq] at hy
    subst hy
    rw [hstep]
    exact le_of_eq rfl
  · rw [stageOps, runOps_cons, hstep]
    exact h.2

end DocuVerse

namespace DocuVerse

/-- C1 counterexample: a complete four-stage ingestion task — every stage
started and completed, all updates with `current ≤ total` — whose
embedding-stage updates follow the counter sequence the hierarchical
chunker actually emits (`(1,1)` for the document counter, then `(0,1)` when
the level-0 pass begins): `total_progress` drops from 80 to 50 at the
per-level reset, so it is not monotonically non-decreasing, although it
does end at exactly 100. -/
theorem C1_counterexample :
    ¬ List.Chain' (· ≤ ·) (totalsTrace initPM badTask)
      ∧ (runOps initPM badTask).total_progress = 100 := by
  have htr : totalsTrace initPM badTask
      = [0, 0, 0, 20, 20, 20, 50, 50, 80, 50, 80, 80, 80, 100] := by
    simp [badTask, taskOps, stageOps, totalsTrace, List.scanl, pmStep,
      start_stage, update_stage_progress, complete_stage, updateTotalProgress,
      totalOf, stageWeights, stageContrib, initPM]
    norm_num
  constructor
  · intro h
    rw [htr] at h
    simp only [List.chain'_cons, List.chain'_singleton, and_true] at h
    norm_num at h
  · simp [badTask, taskOps, stageOps, runOps, List.foldl, pmStep,
      start_stage, update_stage_progress, complete_stage, updateTotalProgress,
      totalOf, stageWeights, stageContrib, initPM]
    norm_num

/-- C1 (amended): for every four-stage ingestion task in which each stage
is started and completed and whose `update_stage_progress` calls have
positive totals, `current ≤ total` and non-decreasing completion ratios
within each stage, `total_progress` is monotonically non-decreasing across
the successive calls and equals exactly 100 after the last stage's
`complete_stage` (the configured weights sum to 1).  Without the
non-decreasing-ratio premise monotonicity fails: the chunker's per-level
counter resets lower the ratio mid-stage (see the counterexample). -/
theorem C1_weighted_progress (pu cu eu su : List (ℕ × ℕ))
    (hpv : validUpdates pu) (hcv : validUpdates cu)
    (hev : validUpdates eu) (hsv : validUpdates su)
    (hpm : ratiosMono pu) (hcm : ratiosMono cu)
    (hem : ratiosMono eu) (hsm : ratiosMono su) :
    List.Chain' (· ≤ ·) (totalsTrace initPM (taskOps pu cu eu su))
      ∧ (runOps initPM (taskOps pu cu eu su)).total_progress = 100 := by
  have hw5 : (0:ℚ) ≤ 1/5 := by norm_num
  have hw3 : (0:ℚ) ≤ 3/10 := by norm_num
  have h1 := chain_stageOps "parsing" [] 0 (1/5) hw5
    (fun sp => by rw [totalOf_parsing]; ring) pu initPM rfl rfl hpv hpm
  have h2 := chain_stageOps "chunking" ["parsing"] 20 (3/10) hw3
    (fun sp => by rw [totalOf_chunking]) cu
    { current_stage := "parsing", stage_progress := 100,
      total_progress := 0 + 100 * (1/5), started := ["parsing"] }
    rfl (by norm_num) hcv hcm
  have h3 := chain_stageOps "embedding" ["chunking", "parsing"] 50 (3/10) hw3
    (fun sp => by rw [totalOf_embedding]) eu
    { current_stage := "chunking", stage_progress := 100,
      total_progress := 20 + 100 * (3/10), started := ["chunking", "parsing"] }
    rfl (by norm_num) hev hem
  have h4 := chain_stageOps "storage" ["embedding", "chunking", "parsing"] 80 (1/5) hw5
    (fun sp => by rw [totalOf_storage]) su
    { current_stage := "embedding", stage_progress := 100,
      total_progress := 50 + 100 * (3/10),
      started := ["embedding", "chunking", "parsing"] }
    rfl (by norm_num) hsv hsm
  have r1 : runOps initPM (stageOps "parsing" pu)
      = { current_stage := "parsing", stage_progress := 100,
          total_progress := 0 + 100 * (1/5), started := ["parsing"] } := h1.2
  have r2 : runOps initPM (stageOps "parsing" pu ++ stageOps "chunking" cu)
      = { current_stage := "chunking", stage_progress := 100,
          total_progress := 20 + 100 * (3/10), started := ["chunking", "parsing"] } := by
    rw [runOps_append, r1]
    exact h2.2
  have r3 : runOps initPM (stageOps "parsing" pu ++ stageOps "chunking" cu
        ++ stageOps "embedding" eu)
      = { current_stage := "embedding", stage_progress := 100,
          total_progress := 50 + 100 * (3/10),
          started := ["embedding", "chunking", "parsing"] } := by
    rw [runOps_append, r2]
    exact h3.2
  have r4 : runOps initPM (taskOps pu cu eu su)
      = { current_stage := "storage", stage_progress := 100,
          total_progress := 80 + 100 * (1/5),
          started := ["storage", "embedding", "chunking", "parsing"] } := by
    rw [taskOps, runOps_append, r3]
    exact h4.2
  have c12 : List.Chain' (· ≤ ·)
      (totalsTrace initPM (stageOps "parsing" pu ++ stageOps "chunking" cu)) :=
    chain_totalsTrace_append _ _ _ h1.1 (by rw [r1]; exact h2.1)
  have c123 : List.Chain' (· ≤ ·)
      (totalsTrace initPM (stageOps "parsing" pu ++ stageOps "chunking" cu
        ++ stageOps "embedding" eu)) :=
    chain_totalsTrace_append _ _ _ c12 (by rw [r2]; exact h3.1)
  have c1234 : List.Chain' (· ≤ ·) (totalsTrace initPM (taskOps pu cu eu su)) := by
    rw [taskOps]
    exact chain_totalsTrace_append _ _ _ c123 (by rw [r3]; exact h4.1)
  refine ⟨c1234, ?_⟩
  rw [r4]
  norm_num

/-- C1 witness: the amended statement at a concrete well-behaved task —
monotone counter updates in parsing, embedding and storage, none in
chunking. -/
theorem C1_witness :
    List.Chain' (· ≤ ·)
        (totalsTrace initPM (taskOps [(0,1), (1,1)] [] [(0,2), (1,2), (2,2)] [(1,1)]))
      ∧ (runOps initPM
          (taskOps [(0,1), (1,1)] [] [(0,2), (1,2), (2,2)] [(1,1)])).total_progress
          = 100 :=
  C1_weighted_progress [(0,1), (1,1)] [] [(0,2), (1,2), (2,2)] [(1,1)]
    (by norm_num [validUpdates]) (by norm_num [validUpdates])
    (by norm_num [validUpdates]) (by norm_num [validUpdates])
    (by simp only [ratiosMono, List.chain'_cons, List.chain'_singleton]; norm_num)
    (by simp [ratiosMono])
    (by simp only [ratiosMono, List.chain'_cons, List.chain'_singleton]; norm_num)
    (by simp [ratiosMono])

end DocuVerse
